import Mathlib

/-!
Verification of the hw3roots repository (src/functions.py, src/testFunctions.py,
src/testNewton.py) against its natural-language specification.

Scalars are modelled as `ℚ` (the repository works with exact test values and
the claims are about exact arithmetic identities in the code, not about
floating-point rounding); numpy column vectors of shape (N,1) are modelled as
`List ℚ`; the `N×N` numpy matrix `Df_x`, which the code fills column by
column (`Df_x[:,i] = ...`), is modelled as the list of its `N` columns.

Note the exact transcription of `src/functions.py` lines 39 and 89: the Python
expression `f(x + dx) - fx / dx` parses as `f(x + dx) - (fx / dx)` because `/`
binds tighter than `-`, so that is what the embedding computes.
-/

namespace Hw3

/-- Elementwise addition of two vectors, the embedding of numpy `x + h` for
same-shape operands (numpy adds elementwise). -/
def vecAdd (u v : List ℚ) : List ℚ := List.zipWith (· + ·) u v

/-- The vector `h` of `src/functions.py` line 72 after `h[i] = dx`
(line 87) starting from `np.zeros_like(x)`: all zeros except slot `i`,
which holds `dx`. -/
def unitVec (N i : ℕ) (dx : ℚ) : List ℚ := (List.replicate N (0 : ℚ)).set i dx

/-- Embedding of the scalar branch of `approximateJacobian`
(src/functions.py lines 34 and 38-39): `fx = f(x)` and then
`return f(x + dx) - fx / dx`.  Python precedence makes this
`f(x+dx) - (f(x)/dx)`. -/
def approximateJacobianScalar (f : ℚ → ℚ) (x dx : ℚ) : ℚ :=
  let fx := f x
  f (x + dx) - fx / dx

/-- Embedding of the loop of `approximateJacobian` (src/functions.py lines
86-91), iterating over the column indices `is` and threading the mutable
buffer `h`.  Each iteration sets `h[i] = dx`, calls `f(x + h)`, stores the
column `f(x + h) - fx / dx` (Python precedence: `fx / dx` first), and resets
`h[i] = 0`.  Returns the final `h`, the list of columns of `Df_x`, and the
list of arguments passed to `f`. -/
def jacLoop (f : List ℚ → List ℚ) (x fx : List ℚ) (dx : ℚ) :
    List ℕ → List ℚ → List ℚ × List (List ℚ) × List (List ℚ)
  | [], h => (h, [], [])
  | i :: is, h =>
    let h1 := h.set i dx
    let arg := vecAdd x h1
    let col := List.zipWith (fun a b => a - b / dx) (f arg) fx
    let h2 := h1.set i 0
    let rest := jacLoop f x fx dx is h2
    (rest.1, col :: rest.2.1, arg :: rest.2.2)

/-- Embedding of the array branch of `approximateJacobian` (src/functions.py
lines 34, 57-58, 72, 86-91): evaluate `fx = f(x)` once, allocate
`h = np.zeros_like(x)`, and run the loop over `range(x.size)`.  The whole
run is kept: final `h`, columns, and the perturbed arguments passed to `f`. -/
def approximateJacobianRun (f : List ℚ → List ℚ) (x : List ℚ) (dx : ℚ) :
    List ℚ × List (List ℚ) × List (List ℚ) :=
  let fx := f x
  jacLoop f x fx dx (List.range x.length) (List.replicate x.length 0)

/-- The value returned by the array branch of `approximateJacobian`: the
matrix `Df_x`, as its list of columns. -/
def approximateJacobian (f : List ℚ → List ℚ) (x : List ℚ) (dx : ℚ) :
    List (List ℚ) :=
  (approximateJacobianRun f x dx).2.1

/-- The perturbed arguments `x + h` passed to `f` inside the loop of
`approximateJacobian`, in order. -/
def jacArgsList (f : List ℚ → List ℚ) (x : List ℚ) (dx : ℚ) : List (List ℚ) :=
  (approximateJacobianRun f x dx).2.2

/-- The state of the buffer `h` after the loop of `approximateJacobian`. -/
def jacFinalH (f : List ℚ → List ℚ) (x : List ℚ) (dx : ℚ) : List ℚ :=
  (approximateJacobianRun f x dx).1

/-- Every argument on which one call `approximateJacobian(f, x, dx)` evaluates
`f`: the base point `x` (src/functions.py line 34) followed by the perturbed
points of the loop (line 89), in evaluation order. -/
def jacCalls (f : List ℚ → List ℚ) (x : List ℚ) (dx : ℚ) : List (List ℚ) :=
  x :: jacArgsList f x dx

/-- Spec-side formula for the scalar case of `approximateJacobian`
(spec section 4.1): the forward-difference quotient `(f(x+dx) - f(x)) / dx`. -/
def specForwardDifference (f : ℚ → ℚ) (x dx : ℚ) : ℚ :=
  (f (x + dx) - f x) / dx

/-- Spec-side formula for the vector case of `approximateJacobian`
(spec section 4.1): the matrix, as a list of columns, whose column `i` is
`(f(x + dx·e_i) - f(x)) / dx`. -/
def specJacobianColumns (f : List ℚ → List ℚ) (x : List ℚ) (dx : ℚ) :
    List (List ℚ) :=
  (List.range x.length).map fun i =>
    List.zipWith (fun a b => (a - b) / dx) (f (vecAdd x (unitVec x.length i dx))) (f x)

/-- Modelled from the spec: the Newton solver (module `newton`, class
`Newton`, imported by src/testNewton.py) is not part of src/, so its
iteration is modelled from spec section 4.2 for the scalar case: check
`‖f(x_k)‖ < tol` and return `x_k` on success; otherwise compute the Jacobian
with the Jacobian provider `jac`, solve the scalar linear system
(`δ = f(x_k) / J`), update `x_{k+1} = x_k - δ`, and repeat; exhausting
`maxiter` steps without convergence is a reported failure (`none`), never a
silently returned value.  The fuel argument counts remaining residual
checks (`maxiter + 1` of them allows `maxiter` Newton steps). -/
def newtonIter (f : ℚ → ℚ) (jac : ℚ → ℚ) (tol : ℚ) : ℕ → ℚ → Option ℚ
  | 0, _ => none
  | k + 1, x =>
    if |f x| < tol then some x
    else newtonIter f jac tol k (x - f x / jac x)

/-- Modelled from the spec: `newton.Newton(f, tol, maxiter).solve(x0)` with no
exact Jacobian supplied, so the Jacobian provider is the repository's
`approximateJacobian` (scalar branch) with step `dx` — spec section 4.2
step 3 (`J = approximateJacobian(f, x_k, dx)` when `exactJacobian` is
absent). -/
def newtonSolve (f : ℚ → ℚ) (tol dx : ℚ) (maxiter : ℕ) (x0 : ℚ) : Option ℚ :=
  newtonIter f (fun x => approximateJacobianScalar f x dx) tol (maxiter + 1) x0

/-- The same spec-modelled Newton iteration, but driven by the spec-side
forward-difference formula `(f(x+dx) - f(x))/dx` of spec section 4.1 instead
of the code's `approximateJacobian`.  Used to compare the solver's intended
behaviour with its behaviour over the code's Jacobian. -/
def newtonSolveSpecJac (f : ℚ → ℚ) (tol dx : ℚ) (maxiter : ℕ) (x0 : ℚ) :
    Option ℚ :=
  newtonIter f (fun x => specForwardDifference f x dx) tol (maxiter + 1) x0

/-- Embedding of the `Polynomial` class of src/functions.py: the object holds
the coefficient list `self._coeffs` (index = degree). -/
structure Polynomial where
  _coeffs : List ℚ
deriving DecidableEq

/-- Embedding of `Polynomial._f` (src/functions.py lines 124-130):
`ans = 0`, then `for c in reversed(self._coeffs): ans = x*ans + c`. -/
def Polynomial._f (p : Polynomial) (x : ℚ) : ℚ :=
  p._coeffs.reverse.foldl (fun ans c => x * ans + c) 0

/-- Embedding of `Polynomial.__call__` (src/functions.py lines 134-135). -/
def Polynomial.call (p : Polynomial) (x : ℚ) : ℚ := p._f x

/-- State-passing embedding of `Polynomial.__call__`: a Python method call
receives the object and can in principle mutate it, so the embedding returns
the result together with the object after the call.  The body of `_f`
(src/functions.py lines 124-130) only binds the local name `ans`; no
statement assigns to `self._coeffs`, so the returned object is the receiver
with its `_coeffs` field exactly as the loop left it, i.e. unchanged. -/
def Polynomial.callSt (p : Polynomial) (x : ℚ) : ℚ × Polynomial :=
  let ans := p._coeffs.reverse.foldl (fun ans c => x * ans + c) 0
  (ans, p)

/-- Horner fold helper: folding the reversed coefficient list from an
arbitrary accumulator `a` evaluates the polynomial and carries `a·x^n`. -/
theorem horner_foldl (x : ℚ) :
    ∀ (cs : List ℚ) (a : ℚ),
      cs.reverse.foldl (fun ans c => x * ans + c) a =
        (∑ i ∈ Finset.range cs.length, cs.getD i 0 * x ^ i) + a * x ^ cs.length
  | [], a => by simp
  | c :: cs, a => by
    have ih := horner_foldl x cs a
    simp only [List.reverse_cons, List.foldl_append, List.foldl_cons,
      List.foldl_nil] at *
    rw [ih]
    rw [List.length_cons, Finset.sum_range_succ']
    simp only [List.getD_cons_succ, List.getD_cons_zero, pow_zero, mul_one,
      pow_succ]
    rw [mul_add, Finset.mul_sum]
    have hterm : ∀ i ∈ Finset.range cs.length,
        x * (cs.getD i 0 * x ^ i) = cs.getD i 0 * (x ^ i * x) := by
      intro i _
      ring
    rw [Finset.sum_congr rfl hterm]
    ring

/-- The perturbed argument of column `i`: `x + h` with `h` zero everywhere
except `dx` in slot `i`. -/
def jacArg (x : List ℚ) (dx : ℚ) (i : ℕ) : List ℚ :=
  vecAdd x (unitVec x.length i dx)

/-- The column the code stores for index `i`:
`f(x + dx·e_i) - f(x)/dx`, elementwise (Python precedence). -/
def jacCol (f : List ℚ → List ℚ) (x : List ℚ) (dx : ℚ) (i : ℕ) : List ℚ :=
  List.zipWith (fun a b => a - b / dx) (f (jacArg x dx i)) (f x)

/-- Starting from the all-zero buffer `h`, the loop of `approximateJacobian`
restores `h` to all zeros after every iteration, so each iteration `i` calls
`f` at exactly `x + dx·e_i` and stores the column
`f(x + dx·e_i) - f(x)/dx`. -/
theorem jacLoop_closed (f : List ℚ → List ℚ) (x fx : List ℚ) (dx : ℚ) :
    ∀ is : List ℕ,
      jacLoop f x fx dx is (List.replicate x.length (0 : ℚ)) =
        (List.replicate x.length (0 : ℚ),
         is.map fun i =>
           List.zipWith (fun a b => a - b / dx) (f (vecAdd x (unitVec x.length i dx))) fx,
         is.map fun i => vecAdd x (unitVec x.length i dx))
  | [] => rfl
  | i :: is => by
    have hreset :
        ((List.replicate x.length (0 : ℚ)).set i dx).set i 0 =
          List.replicate x.length (0 : ℚ) := by
      rw [List.set_set, List.set_replicate_self]
    simp only [jacLoop, hreset, jacLoop_closed f x fx dx is, List.map_cons]
    rfl

/-- The columns of the returned matrix, in closed form. -/
theorem approximateJacobian_eq_map (f : List ℚ → List ℚ) (x : List ℚ)
    (dx : ℚ) :
    approximateJacobian f x dx = (List.range x.length).map (jacCol f x dx) := by
  simp only [approximateJacobian, approximateJacobianRun, jacLoop_closed]
  rfl

/-- The perturbed arguments passed to `f`, in closed form. -/
theorem jacArgsList_eq_map (f : List ℚ → List ℚ) (x : List ℚ) (dx : ℚ) :
    jacArgsList f x dx = (List.range x.length).map (jacArg x dx) := by
  simp only [jacArgsList, approximateJacobianRun, jacLoop_closed]
  rfl

/-- The buffer `h` is all zeros again when the loop finishes. -/
theorem jacFinalH_eq_zero (f : List ℚ → List ℚ) (x : List ℚ) (dx : ℚ) :
    jacFinalH f x dx = List.replicate x.length 0 := by
  simp only [jacFinalH, approximateJacobianRun, jacLoop_closed]

/-- The perturbed argument has the same length as `x` and agrees with `x`
except in slot `i`, where it holds `x[i] + dx`. -/
theorem jacArg_length (x : List ℚ) (dx : ℚ) (i : ℕ) :
    (jacArg x dx i).length = x.length := by
  simp [jacArg, vecAdd, unitVec]

/-- Slot `i` of the perturbed argument is `x[i] + dx`. -/
theorem jacArg_getElem_self (x : List ℚ) (dx : ℚ) (i : ℕ) (hi : i < x.length) :
    (jacArg x dx i).getD i 0 = x.getD i 0 + dx := by
  have hlen : i < (jacArg x dx i).length := by rw [jacArg_length]; exact hi
  have hu : i < (unitVec x.length i dx).length := by simp [unitVec, hi]
  have h1 : (jacArg x dx i).getD i 0 = (jacArg x dx i).get (Fin.mk i hlen) := by
    simp [List.getD_eq_getElem?_getD, List.getElem?_eq_getElem hlen]
  have h2 : x.getD i 0 = x.get (Fin.mk i hi) := by
    simp [List.getD_eq_getElem?_getD, List.getElem?_eq_getElem hi]
  rw [h1, h2]
  simp only [List.get_eq_getElem, jacArg, vecAdd, List.getElem_zipWith, unitVec]
  rw [List.getElem_set_self]

/-- A perturbed argument with a nonzero step differs from the base point. -/
theorem jacArg_ne_base (x : List ℚ) (dx : ℚ) (hdx : dx ≠ 0) (i : ℕ)
    (hi : i < x.length) : jacArg x dx i ≠ x := by
  intro heq
  have hcong := congrArg (fun l => l.getD i 0) heq
  simp only at hcong
  rw [jacArg_getElem_self x dx i hi] at hcong
  have : dx = 0 := by linarith
  exact hdx this

/-- The test function of `TestFunctions.test_ApproxJacobian2`
(src/testFunctions.py lines 32-38): `f(x) = A·x` with
`A = [[1, 2], [3, 4]]`, on column vectors of length 2. -/
def fA (v : List ℚ) : List ℚ :=
  [v.getD 0 0 + 2 * v.getD 1 0, 3 * v.getD 0 0 + 4 * v.getD 1 0]

/-- C1: the claim says the scalar case returns the forward-difference
quotient `(f(x+dx) - f(x)) / dx`.  The code (src/functions.py line 39,
`return f(x + dx) - fx / dx`) instead computes `f(x+dx) - (f(x)/dx)`
because `/` binds tighter than `-` in Python.  At the repository's own test
input (`test_ApproxJacobian1`: `f(x) = 3x + 5`, `x0 = 2.0`, `dx = 1e-3`) the
code yields `-10988.997` while the claimed quotient is `3`, so the code
contradicts its own docstring and test. -/
theorem scalar_branch_not_forward_difference :
    approximateJacobianScalar (fun x => 3 * x + 5) 2 (1 / 1000) =
        -(10988997 / 1000)
    ∧ specForwardDifference (fun x => 3 * x + 5) 2 (1 / 1000) = 3
    ∧ approximateJacobianScalar (fun x => 3 * x + 5) 2 (1 / 1000) ≠
        specForwardDifference (fun x => 3 * x + 5) 2 (1 / 1000) := by
  refine ⟨?_, ?_, ?_⟩
  · norm_num [approximateJacobianScalar]
  · norm_num [specForwardDifference]
  · norm_num [approximateJacobianScalar, specForwardDifference]

/-- C2: the claim says column `i` of the array case is
`(f(x + dx·e_i) - f(x)) / dx`.  The code (src/functions.py line 89,
`Df_x[:,i] = f(x + h) - fx / dx`) instead stores `f(x + dx·e_i) - f(x)/dx`.
At the repository's own test input (`test_ApproxJacobian2`:
`f(x) = A·x`, `A = [[1,2],[3,4]]`, `x0 = [5,6]`, `dx = 1e-6`) the code's
matrix is far from the claimed one (which equals `A` exactly for this linear
`f`), so the code contradicts its own docstring and test. -/
theorem array_branch_not_forward_difference_columns :
    approximateJacobian fA [5, 6] (1 / 1000000) =
        [[-(16999982999999 / 1000000), -(38999960999997 / 1000000)],
         [-(16999982999998 / 1000000), -(38999960999996 / 1000000)]]
    ∧ specJacobianColumns fA [5, 6] (1 / 1000000) = [[1, 3], [2, 4]]
    ∧ approximateJacobian fA [5, 6] (1 / 1000000) ≠
        specJacobianColumns fA [5, 6] (1 / 1000000) := by
  refine ⟨?_, ?_, ?_⟩
  · norm_num [approximateJacobian, approximateJacobianRun, jacLoop, vecAdd,
      unitVec, fA, List.range_succ]
  · norm_num [specJacobianColumns, vecAdd, unitVec, fA, List.range_succ]
  · norm_num [approximateJacobian, approximateJacobianRun, jacLoop,
      specJacobianColumns, vecAdd, unitVec, fA, List.range_succ]

/-- C3: the claim (and src/testNewton.py `testLinear`) says the solver built
with `maxiter=2` returns exactly `-2.0` from `solve(2.0)` for
`f(x) = 3x + 6`.  With the spec-modelled Newton iteration driven by the
repository's `approximateJacobian` (scalar branch), the approximate Jacobian
at `x=2` is `≈ -1.2e7` instead of `3` (the precedence bug of
src/functions.py line 39), the step barely moves the iterate, and the solve
exhausts `maxiter` and fails (`none`).  Driven by the spec's
forward-difference formula instead, the same iteration returns `-2`
exactly, confirming the claim is the intended behaviour. -/
theorem newton_testLinear_fails_with_code_jacobian :
    newtonSolve (fun x => 3 * x + 6) (1 / 10 ^ 15) (1 / 10 ^ 6) 2 2 = none
    ∧ newtonSolveSpecJac (fun x => 3 * x + 6) (1 / 10 ^ 15) (1 / 10 ^ 6) 2 2 =
        some (-2) := by
  constructor
  · norm_num [newtonSolve, newtonIter, approximateJacobianScalar, abs]
  · norm_num [newtonSolveSpecJac, newtonIter, specForwardDifference, abs]

/-- C4: one call of `approximateJacobian` on an `N`-vector evaluates `f`
exactly `N+1` times: the base call (src/functions.py line 34) plus one
perturbed call per column (line 89); with a nonzero step the base point
occurs exactly once among the arguments, so `f(x)` is computed once and
reused. -/
theorem jacobian_evaluation_count (f : List ℚ → List ℚ) (x : List ℚ)
    (dx : ℚ) (hdx : dx ≠ 0) :
    (jacCalls f x dx).length = x.length + 1
    ∧ (jacCalls f x dx).count x = 1 := by
  constructor
  · simp [jacCalls, jacArgsList_eq_map]
  · rw [jacCalls, List.count_cons_self]
    have hnot : x ∉ jacArgsList f x dx := by
      rw [jacArgsList_eq_map]
      intro hmem
      rcases List.mem_map.mp hmem with ⟨i, hi, hia⟩
      exact jacArg_ne_base x dx hdx i (List.mem_range.mp hi) hia
    rw [List.count_eq_zero.mpr hnot]

/-- Witness for C4 at `f = id`, `x = [1, 2]`, `dx = 1`. -/
theorem jacobian_evaluation_count_witness :
    (jacCalls (fun v => v) [1, 2] 1).length = ([1, 2] : List ℚ).length + 1
    ∧ (jacCalls (fun v => v) [1, 2] 1).count [1, 2] = 1 :=
  jacobian_evaluation_count (fun v => v) [1, 2] 1 (by norm_num)

/-- C5: for any `f` that respects the shape contract (length-preserving on
length-`N` inputs), the array branch returns an `N×N` matrix: `N` columns
(the loop runs over `range(x.size)`) each of length `N`; the scalar branch
(`approximateJacobianScalar`) is scalar-valued by construction. -/
theorem jacobian_shape_invariance (f : List ℚ → List ℚ) (x : List ℚ)
    (dx : ℚ)
    (hf : ∀ v : List ℚ, v.length = x.length → (f v).length = x.length) :
    (approximateJacobian f x dx).length = x.length
    ∧ ∀ col ∈ approximateJacobian f x dx, col.length = x.length := by
  constructor
  · simp [approximateJacobian_eq_map]
  · intro col hcol
    rw [approximateJacobian_eq_map] at hcol
    rcases List.mem_map.mp hcol with ⟨i, _, hic⟩
    rw [← hic]
    simp [jacCol, List.length_zipWith, hf _ (jacArg_length x dx i), hf x rfl]

/-- Witness for C5 at `f = id`, `x = [1, 2]`, `dx = 1`. -/
theorem jacobian_shape_invariance_witness :
    (approximateJacobian (fun v => v) [1, 2] 1).length =
        ([1, 2] : List ℚ).length
    ∧ ∀ col ∈ approximateJacobian (fun v => v) [1, 2] 1,
        col.length = ([1, 2] : List ℚ).length :=
  jacobian_shape_invariance (fun v => v) [1, 2] 1 (fun _ h => h)

/-- C8: every argument `approximateJacobian` passes to `f` has the same
length as `x` and is either `x` itself or `x + h` with `h` zero except for
`dx` in one slot; and the buffer `h` is back to all zeros at the end of the
loop (each iteration resets its slot before the next one runs). -/
theorem jacobian_call_invariant (f : List ℚ → List ℚ) (x : List ℚ)
    (dx : ℚ) :
    (∀ a ∈ jacCalls f x dx,
        a.length = x.length ∧
          (a = x ∨ ∃ i, i < x.length ∧ a = vecAdd x (unitVec x.length i dx)))
    ∧ jacFinalH f x dx = List.replicate x.length 0 := by
  refine ⟨?_, jacFinalH_eq_zero f x dx⟩
  intro a ha
  rw [jacCalls, List.mem_cons] at ha
  rcases ha with rfl | hmem
  · exact ⟨rfl, Or.inl rfl⟩
  · rw [jacArgsList_eq_map] at hmem
    rcases List.mem_map.mp hmem with ⟨i, hi, hia⟩
    have hi' : i < x.length := List.mem_range.mp hi
    refine ⟨?_, Or.inr ⟨i, hi', hia.symm⟩⟩
    rw [← hia]
    exact jacArg_length x dx i

/-- Witness for C8: the base call at `f = id`, `x = [1, 2]`, `dx = 1`. -/
theorem jacobian_call_invariant_witness :
    ([1, 2] : List ℚ).length = ([1, 2] : List ℚ).length
    ∧ (([1, 2] : List ℚ) = [1, 2] ∨
        ∃ i, i < ([1, 2] : List ℚ).length ∧
          ([1, 2] : List ℚ) =
            vecAdd [1, 2] (unitVec ([1, 2] : List ℚ).length i 1)) :=
  (jacobian_call_invariant (fun v => v) [1, 2] 1).1 [1, 2]
    (List.mem_cons_self _ _)

/-- C6: `Polynomial([c0, ..., cn])(x)` equals `Σ ci·x^i`; the code computes
it by the Horner recurrence `ans = x*ans + c` over the reversed coefficient
list (src/functions.py lines 124-130). -/
theorem polynomial_eval_eq_sum (coeffs : List ℚ) (x : ℚ) :
    (Polynomial.mk coeffs).call x =
      ∑ i ∈ Finset.range coeffs.length, coeffs.getD i 0 * x ^ i := by
  have h := horner_foldl x coeffs 0
  simp only [Polynomial.call, Polynomial._f] at *
  rw [h]
  ring

/-- C9: a `Polynomial` built from the empty coefficient list evaluates to
`0` on every input: the Horner loop body never runs and `ans` stays `0`. -/
theorem polynomial_empty_eval_zero (x : ℚ) :
    (Polynomial.mk []).call x = 0 := rfl

/-- C10: evaluating a `Polynomial` leaves its stored coefficients unchanged
(the body of `_f` only assigns the local `ans`), so a second call on the
post-call object returns the same value. -/
theorem polynomial_call_frame (p : Polynomial) (x : ℚ) :
    (p.callSt x).2 = p
    ∧ (p.callSt x).1 = ((p.callSt x).2.callSt x).1 :=
  ⟨rfl, rfl⟩

/-- Embedding of the scalar branch of `approximateJacobian` for a fallible
`f` (a Python callable may raise): an exception raised by either call of `f`
aborts `approximateJacobian` at that point with the same exception; the
function itself adds no check of its own.  Faults are modelled as
`Except ℕ` values (the `ℕ` identifies the fault). -/
def approximateJacobianScalarE (f : ℚ → Except ℕ ℚ) (x dx : ℚ) :
    Except ℕ ℚ :=
  match f x with
  | .error e => .error e
  | .ok fx =>
    match f (x + dx) with
    | .error e => .error e
    | .ok y => .ok (y - fx / dx)

/-- The loop of the array branch of `approximateJacobian` for a fallible
`f`: each iteration perturbs `h`, calls `f(x + h)`, and an exception from
`f` aborts the whole call at that point. -/
def jacLoopE (f : List ℚ → Except ℕ (List ℚ)) (x fx : List ℚ) (dx : ℚ) :
    List ℕ → List ℚ → Except ℕ (List (List ℚ))
  | [], _ => .ok []
  | i :: is, h =>
    let h1 := h.set i dx
    match f (vecAdd x h1) with
    | .error e => .error e
    | .ok fxh =>
      match jacLoopE f x fx dx is (h1.set i 0) with
      | .error e => .error e
      | .ok rest => .ok (List.zipWith (fun a b => a - b / dx) fxh fx :: rest)

/-- The array branch of `approximateJacobian` for a fallible `f`: the base
call `fx = f(x)` comes first (src/functions.py line 34), so its exception
propagates before any perturbed call happens. -/
def approximateJacobianE (f : List ℚ → Except ℕ (List ℚ)) (x : List ℚ)
    (dx : ℚ) : Except ℕ (List (List ℚ)) :=
  match f x with
  | .error e => .error e
  | .ok fx => jacLoopE f x fx dx (List.range x.length) (List.replicate x.length 0)

/-- Stateless form of `jacLoopE` (the buffer `h` is all zeros at every
iteration boundary, so iteration `i` always calls `f` at `jacArg x dx i`). -/
def jacColsE (f : List ℚ → Except ℕ (List ℚ)) (x fx : List ℚ) (dx : ℚ) :
    List ℕ → Except ℕ (List (List ℚ))
  | [] => .ok []
  | i :: is =>
    match f (jacArg x dx i) with
    | .error e => .error e
    | .ok fxh =>
      match jacColsE f x fx dx is with
      | .error e => .error e
      | .ok rest => .ok (List.zipWith (fun a b => a - b / dx) fxh fx :: rest)

/-- Starting from the all-zero buffer, `jacLoopE` equals its stateless
form. -/
theorem jacLoopE_closed (f : List ℚ → Except ℕ (List ℚ)) (x fx : List ℚ)
    (dx : ℚ) :
    ∀ is : List ℕ,
      jacLoopE f x fx dx is (List.replicate x.length (0 : ℚ)) =
        jacColsE f x fx dx is
  | [] => rfl
  | i :: is => by
    have hreset :
        ((List.replicate x.length (0 : ℚ)).set i dx).set i 0 =
          List.replicate x.length (0 : ℚ) := by
      rw [List.set_set, List.set_replicate_self]
    simp only [jacLoopE, jacColsE, hreset, jacLoopE_closed f x fx dx is,
      jacArg, unitVec]

/-- Any fault `jacColsE` returns is a fault `f` raised at one of the
perturbed arguments. -/
theorem jacColsE_error (f : List ℚ → Except ℕ (List ℚ)) (x fx : List ℚ)
    (dx : ℚ) :
    ∀ (is : List ℕ) (e : ℕ), jacColsE f x fx dx is = .error e →
      ∃ i, i ∈ is ∧ f (jacArg x dx i) = .error e
  | [], e => by simp [jacColsE]
  | i :: is, e => by
    cases hf : f (jacArg x dx i) with
    | error e' =>
      simp only [jacColsE, hf]
      intro he
      injection he with h
      exact ⟨i, List.mem_cons_self i is, h ▸ hf⟩
    | ok fxh =>
      cases hrec : jacColsE f x fx dx is with
      | error e' =>
        simp only [jacColsE, hf, hrec]
        intro he
        injection he with h
        rcases jacColsE_error f x fx dx is e' hrec with ⟨j, hj, hje⟩
        exact ⟨j, List.mem_cons_of_mem i hj, h ▸ hje⟩
      | ok rest =>
        simp only [jacColsE, hf, hrec]
        intro he
        simp at he

/-- If `f` succeeds on every perturbed argument, `jacColsE` succeeds — with
no condition whatsoever on the lengths of the values `f` returns. -/
theorem jacColsE_ok (f : List ℚ → Except ℕ (List ℚ)) (x fx : List ℚ)
    (dx : ℚ) :
    ∀ is : List ℕ, (∀ i, i ∈ is → ∃ v, f (jacArg x dx i) = .ok v) →
      ∃ cols, jacColsE f x fx dx is = .ok cols
  | [], _ => ⟨[], rfl⟩
  | i :: is, hall => by
    rcases hall i (List.mem_cons_self i is) with ⟨v, hv⟩
    rcases jacColsE_ok f x fx dx is
        (fun j hj => hall j (List.mem_cons_of_mem i hj)) with ⟨cols, hcols⟩
    exact ⟨List.zipWith (fun a b => a - b / dx) v fx :: cols,
      by simp [jacColsE, hv, hcols]⟩

/-- C7: `approximateJacobian` propagates any fault raised by `f` — the base
call's fault verbatim, and every fault it ever returns is one `f` raised at
the base point or at a perturbed point — and it performs no validation of
its own: whenever `f` succeeds on all `N+1` arguments the call succeeds,
with no condition relating the shapes of `f`'s outputs to `x` (the scalar
branch likewise fails exactly when one of its two calls of `f` fails). -/
theorem jacobian_fault_propagation (f : List ℚ → Except ℕ (List ℚ))
    (x : List ℚ) (dx : ℚ) :
    (∀ e : ℕ, f x = .error e → approximateJacobianE f x dx = .error e)
    ∧ (∀ e : ℕ, approximateJacobianE f x dx = .error e →
        f x = .error e ∨ ∃ i, i < x.length ∧ f (jacArg x dx i) = .error e)
    ∧ ((∃ v, f x = .ok v) →
        (∀ i, i < x.length → ∃ v, f (jacArg x dx i) = .ok v) →
        ∃ M, approximateJacobianE f x dx = .ok M)
    ∧ (∀ (g : ℚ → Except ℕ ℚ) (y dy : ℚ) (e : ℕ),
        approximateJacobianScalarE g y dy = .error e ↔
          g y = .error e ∨ (∃ v, g y = .ok v) ∧ g (y + dy) = .error e) := by
  refine ⟨?_, ?_, ?_, ?_⟩
  · intro e he
    simp [approximateJacobianE, he]
  · intro e he
    cases hfx : f x with
    | error e' =>
      left
      simp only [approximateJacobianE, hfx] at he
      injection he with h
      subst h
      rfl
    | ok fx =>
      right
      simp only [approximateJacobianE, hfx, jacLoopE_closed] at he
      rcases jacColsE_error f x fx dx (List.range x.length) e he with
        ⟨i, hi, hie⟩
      exact ⟨i, List.mem_range.mp hi, hie⟩
  · rintro ⟨v, hv⟩ hall
    rcases jacColsE_ok f x v dx (List.range x.length)
        (fun i hi => hall i (List.mem_range.mp hi)) with ⟨cols, hcols⟩
    exact ⟨cols, by simp [approximateJacobianE, hv, jacLoopE_closed, hcols]⟩
  · intro g y dy e
    cases hg : g y with
    | error e' =>
      simp [approximateJacobianScalarE, hg]
    | ok v =>
      cases hg' : g (y + dy) with
      | error e'' =>
        simp [approximateJacobianScalarE, hg, hg']
      | ok w =>
        simp [approximateJacobianScalarE, hg, hg']

/-- Witness for C7: a total failure propagates (`error 7`), and an `f` that
always succeeds makes the call succeed. -/
theorem jacobian_fault_propagation_witness :
    approximateJacobianE (fun _ => .error 7) [1, 2] 1 = .error 7
    ∧ ∃ M, approximateJacobianE (fun v => .ok v) [1, 2] 1 = .ok M :=
  ⟨(jacobian_fault_propagation (fun _ => .error 7) [1, 2] 1).1 7 rfl,
   (jacobian_fault_propagation (fun v => .ok v) [1, 2] 1).2.2.1
     ⟨[1, 2], rfl⟩ (fun i _ => ⟨jacArg [1, 2] 1 i, rfl⟩)⟩

end Hw3
